import Mathlib

/-
Verification of `robustness_subgraph.py`: node-removal robustness analysis of a
labeled undirected graph, partitioned into subgroups ("fungi", "Bact", "lipid").

The script's float arithmetic is embedded exactly by unnormalized fractions
(`Frac`, an integer numerator over a natural denominator); every fraction the
script manipulates is produced by exact divisions, so no precision questions
arise for the properties checked here.  Python exceptions (ZeroDivisionError,
IndexError from `list.pop`, networkx errors, the IPython debugger line) are
embedded as `Except PyError`.
-/

namespace Robustness

/-- Exact embedding of the Python float values produced by the script:
an unnormalized fraction.  All arithmetic used by the script (division of
naturals, sums, `0.5 - R / n`) is implemented structurally so that concrete
runs evaluate inside the kernel. -/
structure Frac where
  num : ℤ
  den : ℕ
deriving DecidableEq, Repr

/-- The fraction `a / b` (the script's `x * 1. / n` divisions). -/
def Frac.ofNats (a b : ℕ) : Frac := ⟨(a : ℤ), b⟩

/-- Addition of fractions (the script's `R += ...` accumulation). -/
def Frac.add (a b : Frac) : Frac :=
  ⟨a.num * (b.den : ℤ) + b.num * (a.den : ℤ), a.den * b.den⟩

/-- Subtraction of fractions (the script's `0.5 - R / n`). -/
def Frac.sub (a b : Frac) : Frac :=
  ⟨a.num * (b.den : ℤ) - b.num * (a.den : ℤ), a.den * b.den⟩

/-- Multiplication of fractions (used by betweenness centrality). -/
def Frac.mul (a b : Frac) : Frac := ⟨a.num * b.num, a.den * b.den⟩

/-- Division of a fraction by a natural number. -/
def Frac.divN (a : Frac) (n : ℕ) : Frac := ⟨a.num, a.den * n⟩

/-- Comparison of fractions, as the comparison of the real values they denote
(denominators produced by the script are positive). -/
def Frac.ble (a b : Frac) : Bool :=
  decide (a.num * (b.den : ℤ) ≤ b.num * (a.den : ℤ))

def Frac.zero : Frac := ⟨0, 1⟩

def Frac.one : Frac := ⟨1, 1⟩

def Frac.half : Frac := ⟨1, 2⟩

/-- The rational value denoted by a fraction. -/
def Frac.toRat (a : Frac) : ℚ := (a.num : ℚ) / (a.den : ℚ)

/-- Sum of a list of fractions, accumulated left to right like the script's
running sums. -/
def fsum (l : List Frac) : Frac := l.foldl Frac.add Frac.zero

/-- A networkx graph as the script uses it: an ordered node list, an edge list
(undirected, unweighted), and the `group` node attribute. -/
structure Graph where
  nodes : List ℕ
  edges : List (ℕ × ℕ)
  group : ℕ → String

/-- Adjacency from the edge list, in either orientation. -/
def adjB (g : Graph) (u v : ℕ) : Bool :=
  g.edges.any (fun e => (e.1 == u && e.2 == v) || (e.1 == v && e.2 == u))

/-- Neighbours of `v` among the graph's nodes. -/
def nbrs (g : Graph) (v : ℕ) : List ℕ :=
  g.nodes.filter (fun u => adjB g v u)

/-- `g.remove_node(v)`: delete the node and all incident edges. -/
def remove_node (g : Graph) (v : ℕ) : Graph :=
  ⟨g.nodes.filter (fun u => u != v),
   g.edges.filter (fun e => e.1 != v && e.2 != v),
   g.group⟩

/-- One expansion step of a reachable set. -/
def ballStep (g : Graph) (s : List ℕ) : List ℕ :=
  (s ++ s.flatMap (nbrs g)).dedup

/-- Nodes reachable from `v` by at most `k` steps. -/
def ball (g : Graph) (v : ℕ) : ℕ → List ℕ
  | 0 => [v]
  | k + 1 => ballStep g (ball g v k)

/-- The connected component of `v` (as computed by
`networkx.connected_components`): all nodes reachable from `v`. -/
def compo (g : Graph) (v : ℕ) : List ℕ :=
  g.nodes.filter (fun u => decide (u ∈ ball g v g.nodes.length))

/-- Size of the largest connected component,
`len(max(networkx.connected_components(g), key = len))`. -/
def lcc (g : Graph) : ℕ :=
  (g.nodes.map (fun v => (compo g v).length)).foldr max 0

/-- Whether all nodes of the graph are pairwise connected. -/
def connectedB (g : Graph) : Bool :=
  g.nodes.all (fun u => g.nodes.all (fun v => decide (v ∈ ball g u g.nodes.length)))

/-- Python exceptions reachable in the analysis functions. -/
inductive PyError where
  | valueError          -- max() over an empty component iterator
  | zeroDivision        -- division by `n = 0`
  | indexError          -- l.pop(0) from an empty ranking
  | networkxError       -- g.remove_node(v) with v not in g
  | debuggerBreakpoint  -- the IPython Tracer line inside degree()
deriving DecidableEq, Repr

/-- `max(networkx.connected_components(g), key = len)` raises ValueError on a
graph with no nodes; otherwise the analysis only uses the component's size. -/
def largestComponentSizeE (g : Graph) : Except PyError ℕ :=
  if g.nodes.isEmpty then Except.error PyError.valueError else Except.ok (lcc g)

/-- Stable insertion of a scored node into a descending-sorted ranking:
the new pair goes in front of the first entry whose score is not larger. -/
def insertDesc (a : ℕ × Frac) : List (ℕ × Frac) → List (ℕ × Frac)
  | [] => [a]
  | b :: t => if Frac.ble b.2 a.2 then a :: b :: t else b :: insertDesc a t

/-- `sorted(m.items(), key = operator.itemgetter(1), reverse = True)`:
a stable sort of (node, score) pairs by score, descending; ties keep the
iteration order of the centrality dict (the graph's node order). -/
def sortDesc (l : List (ℕ × Frac)) : List (ℕ × Frac) := l.foldr insertDesc []

/-- `networkx.degree_centrality`: degree divided by (number of nodes - 1),
in node order. -/
def degree_centrality (g : Graph) : List (ℕ × Frac) :=
  g.nodes.map (fun v => (v, Frac.ofNats (nbrs g v).length (g.nodes.length - 1)))

/-- Breadth-first layers from `s`: `layersAux fuel frontier visited`. -/
def layersAux (g : Graph) : ℕ → List ℕ → List ℕ → List (List ℕ)
  | 0, _, _ => []
  | fuel + 1, frontier, visited =>
    if frontier.isEmpty then []
    else
      frontier ::
        layersAux g fuel
          (((frontier.flatMap (nbrs g)).dedup).filter
            (fun u => !(visited.contains u) && !(frontier.contains u)))
          (visited ++ frontier)

/-- Breadth-first layers from `s`, indexed by distance. -/
def layers (g : Graph) (s : ℕ) : List (List ℕ) :=
  layersAux g (g.nodes.length + 1) [s] []

/-- Distance of `t` from the source of the given layer list. -/
def distIn (Ls : List (List ℕ)) (t : ℕ) : Option ℕ :=
  Ls.findIdx? (fun L => L.contains t)

/-- Shortest-path counts from `s`: layer-by-layer dynamic programming,
`σ(v) = Σ σ(u)` over predecessors `u` in the previous layer. -/
def sigmaAux (g : Graph) : List (List ℕ) → List (ℕ × ℕ) → List (ℕ × ℕ)
  | [], _ => []
  | L :: rest, tprev =>
    let t := L.map (fun v =>
      (v, ((tprev.filter (fun uc => adjB g uc.1 v)).map (fun uc => uc.2)).sum))
    t ++ sigmaAux g rest t

/-- The table of numbers of shortest paths from `s` to every reachable node. -/
def sigmaTab (g : Graph) (s : ℕ) : List (ℕ × ℕ) :=
  match layers g s with
  | [] => []
  | _ :: rest => (s, 1) :: sigmaAux g rest [(s, 1)]

/-- Number of shortest paths from `s` to `t` (0 if unreachable). -/
def sigmaST (g : Graph) (s t : ℕ) : ℕ := ((sigmaTab g s).lookup t).getD 0

/-- Pair dependency of `v` on the ordered pair `(s, t)`:
`σ_sv·σ_vt / σ_st` when `v` lies on a shortest `s`-`t` path, else 0. -/
def pairDep (g : Graph) (v s t : ℕ) : Frac :=
  match distIn (layers g s) t, distIn (layers g s) v, distIn (layers g v) t with
  | some dst, some dsv, some dvt =>
    if dsv + dvt = dst then Frac.ofNats (sigmaST g s v * sigmaST g v t) (sigmaST g s t)
    else Frac.zero
  | _, _, _ => Frac.zero

/-- `networkx.betweenness_centrality` (normalized, endpoints excluded):
sum of pair dependencies over ordered pairs, rescaled by
`1/((N-1)(N-2))` when the graph has more than two nodes. -/
def betweenness_centrality (g : Graph) : List (ℕ × Frac) :=
  let N := g.nodes.length
  g.nodes.map (fun v =>
    let raw := fsum (g.nodes.map (fun s =>
      fsum (g.nodes.map (fun t =>
        if s ≠ v ∧ t ≠ v ∧ s ≠ t then pairDep g v s t else Frac.zero))))
    (v, if 2 < N then raw.divN ((N - 1) * (N - 2)) else raw))

/-- The removal loop shared by the script's three `rem_*` functions
(lines 48-58, 83-93, 119-124): `simLoop recalculate refresh n i fuel g l`
performs `fuel` iterations starting at step index `i`.  Each iteration pops
the front of the ranking `l`, removes that node from `g`, optionally re-sorts
a freshly computed ranking of the whole current graph (`refresh`), and records
`(i / n, largest_component_size / n)`. -/
def simLoop (recalculate : Bool) (refresh : Graph → List (ℕ × Frac)) (n : ℕ) :
    ℕ → ℕ → Graph → List (ℕ × Frac) → Except PyError (List (Frac × Frac) × Graph)
  | _, 0, g, _ => Except.ok ([], g)
  | _, _ + 1, _, [] => Except.error PyError.indexError
  | i, fuel + 1, g, (v, _) :: rest =>
    if v ∈ g.nodes then
      let g' := remove_node g v
      let l' := if recalculate then sortDesc (refresh g') else rest
      match largestComponentSizeE g' with
      | Except.error e => Except.error e
      | Except.ok sz =>
        match simLoop recalculate refresh n (i + 1) fuel g' l' with
        | Except.error e => Except.error e
        | Except.ok (t, gF) => Except.ok ((Frac.ofNats i n, Frac.ofNats sz n) :: t, gF)
    else Except.error PyError.networkxError

/-- A removal-curve result: the x list (fraction removed), the y list
(largest-component fraction), and the vulnerability index. -/
abbrev Row := List Frac × List Frac × Frac

/-- The common body of `rem_betw` / `rem_degr` / `rem_rand`: from the initial
ranking `l0` of a subgroup of size `n`, measure the full graph, then run the
removal loop for steps `1 .. n-1`.  Returns the row together with the mutated
graph (the script mutates `g` in place across the three subgroup calls).
The division `len(largest_component) * 1. / n` with `n = 0` raises
ZeroDivisionError in the source; there is no skip branch. -/
def remRun (l0 : List (ℕ × Frac)) (refresh : Graph → List (ℕ × Frac))
    (n : ℕ) (g : Graph) (recalculate : Bool) : Except PyError (Row × Graph) :=
  match largestComponentSizeE g with
  | Except.error e => Except.error e
  | Except.ok lc0 =>
    if n = 0 then Except.error PyError.zeroDivision
    else
      match simLoop recalculate refresh n 1 (n - 1) g l0 with
      | Except.error e => Except.error e
      | Except.ok (steps, gF) =>
        Except.ok ((Frac.ofNats 0 1 :: steps.map Prod.fst,
                    Frac.ofNats lc0 n :: steps.map Prod.snd,
                    Frac.sub Frac.half ((fsum (steps.map Prod.snd)).divN n)), gF)

/-- `rem_betw(subgraph, g)` (lines 38-59): initial ranking by betweenness
centrality of the subgraph; when `recalculate` is set, the refreshed ranking
is betweenness centrality of the current full graph (line 51). -/
def rem_betw (subgraph g : Graph) (recalculate : Bool) :
    Except PyError (Row × Graph) :=
  remRun (sortDesc (betweenness_centrality subgraph)) betweenness_centrality
    subgraph.nodes.length g recalculate

/-- `rem_degr(subgraph, g)` (lines 73-94): initial ranking by degree
centrality of the subgraph; when `recalculate` is set, the refreshed ranking
is computed by `networkx.betweenness_centrality(g)` (line 86), not by degree
centrality - the loop body is a verbatim copy of `rem_betw`'s. -/
def rem_degr (subgraph g : Graph) (recalculate : Bool) :
    Except PyError (Row × Graph) :=
  remRun (sortDesc (degree_centrality subgraph)) betweenness_centrality
    subgraph.nodes.length g recalculate

/-- Modelled from the spec: the degree variant of §4.2 refreshes its ranking
with the same measure as its initial ranking, degree centrality, computed over
the current post-removal full graph.  This is the behaviour claim C3 ascribes
to `rem_degr`; the source's line 86 uses betweenness centrality instead. -/
def rem_degr_degreeRefresh (subgraph g : Graph) (recalculate : Bool) :
    Except PyError (Row × Graph) :=
  remRun (sortDesc (degree_centrality subgraph)) degree_centrality
    subgraph.nodes.length g recalculate

/-- `rem_rand(subgraph, g)` (lines 109-125): the ranking is a shuffle of the
subgroup's nodes, each with score 0, and the loop never recalculates; the
shuffle outcome is passed in as `shuffled`. -/
def rem_rand (subgraph g : Graph) (shuffled : List ℕ) :
    Except PyError (Row × Graph) :=
  remRun (shuffled.map (fun v => (v, Frac.zero))) betweenness_centrality
    subgraph.nodes.length g false

/-- `g.subgraph([n for n, attrdict in g.node.items() if attrdict['group'] == lbl])`:
the induced subgraph on the nodes carrying the given group label. -/
def subgraphOn (g : Graph) (lbl : String) : Graph :=
  let ns := g.nodes.filter (fun v => g.group v == lbl)
  ⟨ns, g.edges.filter (fun e => ns.contains e.1 && ns.contains e.2), g.group⟩

/-- `betweenness(infile, recalculate)` (lines 20-63) after the graph is
loaded: the three subgroup rows, computed in dict-literal order
(fungi, Bact, lipid), each call mutating the same full graph `g`. -/
def betweenness (g : Graph) (recalculate : Bool) :
    Except PyError (Row × Row × Row) :=
  let fungigraph := subgraphOn g "fungi"
  let bactigraph := subgraphOn g "Bact"
  let lipidgraph := subgraphOn g "lipid"
  match rem_betw fungigraph g recalculate with
  | Except.error e => Except.error e
  | Except.ok (rf, g1) =>
    match rem_betw bactigraph g1 recalculate with
    | Except.error e => Except.error e
    | Except.ok (rb, g2) =>
      match rem_betw lipidgraph g2 recalculate with
      | Except.error e => Except.error e
      | Except.ok (rl, _) => Except.ok (rf, rb, rl)

/-- `degree(infile, recalculate)` (lines 65-99) after the graph is loaded:
the three subgroup rows are computed, then line 98 executes
`from IPython.core.debugger import Tracer; Tracer()();set_trace()` - an
interactive breakpoint followed by a call to the undefined name `set_trace` -
so in an unattended run the `return` on line 99 is never reached. -/
def degree (g : Graph) (recalculate : Bool) :
    Except PyError (Row × Row × Row) :=
  let fungigraph := subgraphOn g "fungi"
  let bactigraph := subgraphOn g "Bact"
  let lipidgraph := subgraphOn g "lipid"
  match rem_degr fungigraph g recalculate with
  | Except.error e => Except.error e
  | Except.ok (_rf, g1) =>
    match rem_degr bactigraph g1 recalculate with
    | Except.error e => Except.error e
    | Except.ok (_rb, g2) =>
      match rem_degr lipidgraph g2 recalculate with
      | Except.error e => Except.error e
      | Except.ok (_rl, _) => Except.error PyError.debuggerBreakpoint

/-- Line 144-147 of `main`: the third CLI argument sets `recalculate` iff it
equals the exact token "True"; any other string silently means False. -/
def parseRecalc (s : String) : Bool := s == "True"

/-- `main(argv)` (lines 133-156) after argument-count checking and graph
loading: parse `recalculate`, run the degree analysis, then the betweenness
analysis, and produce the data that would be concatenated and written as CSV. -/
def main (g : Graph) (recalcArg : String) :
    Except PyError ((Row × Row × Row) × (Row × Row × Row)) :=
  let recalculate := parseRecalc recalcArg
  match degree g recalculate with
  | Except.error e => Except.error e
  | Except.ok VD =>
    match betweenness g recalculate with
    | Except.error e => Except.error e
    | Except.ok VB => Except.ok (VD, VB)

/-- The successful value of a run, if any. -/
def okOf {α : Type} : Except PyError α → Option α
  | Except.ok a => some a
  | Except.error _ => none

/-- The error of a run, if any. -/
def errorOf {α : Type} : Except PyError α → Option PyError
  | Except.ok _ => none
  | Except.error e => some e

/-- The result row of a subgroup run, if the run succeeded. -/
def rowOf (r : Except PyError (Row × Graph)) : Option Row :=
  (okOf r).map Prod.fst

/-- The x list of a successful run. -/
def curveX (r : Except PyError (Row × Graph)) : Option (List Frac) :=
  (rowOf r).map (fun t => t.1)

/-- The y list of a successful run. -/
def curveY (r : Except PyError (Row × Graph)) : Option (List Frac) :=
  (rowOf r).map (fun t => t.2.1)

/-- The vulnerability index of a successful run. -/
def curveV (r : Except PyError (Row × Graph)) : Option Frac :=
  (rowOf r).map (fun t => t.2.2)

/-- The x list of a successful run, as rational values. -/
def curveXQ (r : Except PyError (Row × Graph)) : Option (List ℚ) :=
  (curveX r).map (fun l => l.map Frac.toRat)

/-- The y list of a successful run, as rational values. -/
def curveYQ (r : Except PyError (Row × Graph)) : Option (List ℚ) :=
  (curveY r).map (fun l => l.map Frac.toRat)

/-- The vulnerability index of a successful run, as a rational value. -/
def curveVQ (r : Except PyError (Row × Graph)) : Option ℚ :=
  (curveV r).map Frac.toRat

/-- Group function for graphs whose nodes all belong to one subgroup. -/
def allFungi : ℕ → String := fun _ => "fungi"

/-- The complete graph on two nodes. -/
def K2 : Graph := ⟨[0, 1], [(0, 1)], allFungi⟩

/-- The complete graph on four nodes. -/
def K4 : Graph :=
  ⟨[0, 1, 2, 3], [(0, 1), (0, 2), (0, 3), (1, 2), (1, 3), (2, 3)], allFungi⟩

/-- The complete graph on five nodes. -/
def K5 : Graph :=
  ⟨[0, 1, 2, 3, 4],
   [(0, 1), (0, 2), (0, 3), (0, 4), (1, 2), (1, 3), (1, 4), (2, 3), (2, 4), (3, 4)],
   allFungi⟩

/-- The cycle graph on five nodes. -/
def C5c : Graph := ⟨[1, 2, 3, 4, 5], [(1, 2), (2, 3), (3, 4), (4, 5), (5, 1)], allFungi⟩

/-- The path graph on five nodes. -/
def P5 : Graph := ⟨[1, 2, 3, 4, 5], [(1, 2), (2, 3), (3, 4), (4, 5)], allFungi⟩

/-- The path graph on three nodes. -/
def P3 : Graph := ⟨[1, 2, 3], [(1, 2), (2, 3)], allFungi⟩

/-- Two triangles {1,2,3} and {5,6,7} joined by the bridge path 3-4-5, plus a
node 0 of unique maximal degree attached to 1, 2, 6, 7.  After the removal of
node 0, node 4 has the strictly largest betweenness centrality while the
largest degrees are held by nodes 3 and 5 only. -/
def G8 : Graph :=
  ⟨[0, 1, 2, 3, 4, 5, 6, 7],
   [(0, 1), (0, 2), (0, 6), (0, 7), (1, 2), (1, 3), (2, 3), (3, 4), (4, 5),
    (5, 6), (5, 7), (6, 7)],
   allFungi⟩

/-- A five-node graph with two fungi nodes (1, 2), two Bact nodes (3, 4) on
the path 1-3-2-4, and an isolated lipid node 5. -/
def gShared : Graph :=
  ⟨[1, 2, 3, 4, 5], [(1, 3), (3, 2), (2, 4)],
   fun v => if v ≤ 2 then "fungi" else if v ≤ 4 then "Bact" else "lipid"⟩

/-! Monotonicity of the largest connected component under node removal. -/

theorem adjB_remove_node {g : Graph} {w u v : ℕ}
    (h : adjB (remove_node g w) u v = true) : adjB g u v = true := by
  rcases List.any_eq_true.mp h with ⟨e, he, hp⟩
  exact List.any_eq_true.mpr ⟨e, List.mem_of_mem_filter he, hp⟩

theorem mem_nbrs_remove_node {g : Graph} {w v x : ℕ}
    (h : x ∈ nbrs (remove_node g w) v) : x ∈ nbrs g v := by
  rcases List.mem_filter.mp h with ⟨hx, ha⟩
  exact List.mem_filter.mpr ⟨List.mem_of_mem_filter hx, adjB_remove_node ha⟩

theorem mem_ballStep_mono {g g' : Graph}
    (hn : ∀ y x : ℕ, x ∈ nbrs g' y → x ∈ nbrs g y)
    {s s' : List ℕ} (hs : ∀ x ∈ s', x ∈ s) {x : ℕ}
    (h : x ∈ ballStep g' s') : x ∈ ballStep g s := by
  rcases List.mem_append.mp (List.mem_dedup.mp h) with hx | hx
  · exact List.mem_dedup.mpr (List.mem_append.mpr (Or.inl (hs x hx)))
  · rcases List.mem_flatMap.mp hx with ⟨y, hy, hxy⟩
    exact List.mem_dedup.mpr
      (List.mem_append.mpr (Or.inr (List.mem_flatMap.mpr ⟨y, hs y hy, hn y x hxy⟩)))

theorem mem_ball_succ {g : Graph} {v k x : ℕ} (h : x ∈ ball g v k) :
    x ∈ ball g v (k + 1) :=
  List.mem_dedup.mpr (List.mem_append.mpr (Or.inl h))

theorem mem_ball_le {g : Graph} {v x : ℕ} {k k' : ℕ} (hk : k ≤ k')
    (h : x ∈ ball g v k) : x ∈ ball g v k' := by
  induction k' with
  | zero => exact Nat.le_zero.mp hk ▸ h
  | succ m ih =>
    rcases Nat.lt_or_ge k (m + 1) with hlt | hge
    · exact mem_ball_succ (ih (Nat.lt_succ_iff.mp hlt))
    · exact Nat.le_antisymm hk hge ▸ h

theorem mem_ball_remove_node {g : Graph} {w v : ℕ} :
    ∀ {k x : ℕ}, x ∈ ball (remove_node g w) v k → x ∈ ball g v k := by
  intro k
  induction k with
  | zero => intro x h; exact h
  | succ m ih =>
    intro x h
    exact mem_ballStep_mono (fun y x hx => mem_nbrs_remove_node hx)
      (fun x hx => ih hx) h

theorem compo_length_remove_node (g : Graph) (w v : ℕ) :
    (compo (remove_node g w) v).length ≤ (compo g v).length := by
  have hlen : (remove_node g w).nodes.length ≤ g.nodes.length :=
    List.length_filter_le _ _
  have hsub : (remove_node g w).nodes.Sublist g.nodes := List.filter_sublist _
  calc (compo (remove_node g w) v).length
      = (remove_node g w).nodes.countP
          (fun u => decide (u ∈ ball (remove_node g w) v (remove_node g w).nodes.length)) := by
        simp [compo, List.countP_eq_length_filter]
    _ ≤ g.nodes.countP
          (fun u => decide (u ∈ ball (remove_node g w) v (remove_node g w).nodes.length)) :=
        hsub.countP_le _
    _ ≤ g.nodes.countP (fun u => decide (u ∈ ball g v g.nodes.length)) := by
        apply List.countP_mono_left
        intro a _ ha
        have h1 : a ∈ ball (remove_node g w) v (remove_node g w).nodes.length :=
          of_decide_eq_true ha
        exact decide_eq_true (mem_ball_remove_node (mem_ball_le hlen h1))
    _ = (compo g v).length := by simp [compo, List.countP_eq_length_filter]

theorem le_foldr_max {l : List ℕ} {a : ℕ} (h : a ∈ l) : a ≤ l.foldr max 0 := by
  induction l with
  | nil => cases h
  | cons b t ih =>
    rcases List.mem_cons.mp h with rfl | ht
    · exact Nat.le_max_left _ _
    · exact Nat.le_trans (ih ht) (Nat.le_max_right _ _)

theorem foldr_max_le {l : List ℕ} {b : ℕ} (h : ∀ a ∈ l, a ≤ b) :
    l.foldr max 0 ≤ b := by
  induction l with
  | nil => exact Nat.zero_le _
  | cons c t ih =>
    exact Nat.max_le.mpr ⟨h c (List.mem_cons_self c t), ih fun a ha => h a (List.mem_cons_of_mem c ha)⟩

/-- Removing a node never increases the size of the largest connected
component. -/
theorem lcc_remove_node (g : Graph) (w : ℕ) : lcc (remove_node g w) ≤ lcc g := by
  apply foldr_max_le
  intro a ha
  rcases List.mem_map.mp ha with ⟨v, hv, rfl⟩
  have hvg : v ∈ g.nodes := List.mem_of_mem_filter hv
  exact Nat.le_trans (compo_length_remove_node g w v)
    (le_foldr_max (List.mem_map.mpr ⟨v, hvg, rfl⟩))

/-! Structure of successful removal runs. -/

theorem largestComponentSizeE_ok {g : Graph} {sz : ℕ}
    (h : largestComponentSizeE g = Except.ok sz) :
    sz = lcc g ∧ g.nodes.isEmpty = false := by
  unfold largestComponentSizeE at h
  by_cases he : g.nodes.isEmpty = true
  · rw [if_pos he] at h; cases h
  · rw [if_neg he] at h
    injection h with h'
    exact ⟨h'.symm, by simpa using he⟩

/-- Anatomy of a successful removal loop: the x entries are
`i/n, (i+1)/n, ...`, there is one entry per iteration, and the y entries are
the sizes of the largest component of the successively shrunk graphs over
`n` - a non-increasing sequence of sizes, starting no higher than the current
graph's largest component. -/
theorem simLoop_ok (recalc : Bool) (refresh : Graph → List (ℕ × Frac)) (n : ℕ) :
    ∀ (fuel i : ℕ) (g : Graph) (l : List (ℕ × Frac)) (t : List (Frac × Frac)) (gF : Graph),
      simLoop recalc refresh n i fuel g l = Except.ok (t, gF) →
      (t.map Prod.fst = (List.range' i fuel).map (fun j => Frac.ofNats j n) ∧
        t.length = fuel) ∧
      ∃ szs : List ℕ,
        t.map Prod.snd = szs.map (fun s => Frac.ofNats s n) ∧
        List.Chain' (fun a b => b ≤ a) (lcc g :: szs) := by
  intro fuel
  induction fuel with
  | zero =>
    intro i g l t gF h
    simp only [simLoop] at h
    injection h with h'
    injection h' with h1 h2
    subst h1
    exact ⟨⟨by simp [List.range'], rfl⟩, [], by simp, by simp⟩
  | succ m ih =>
    intro i g l t gF h
    rcases l with _ | ⟨⟨v, sc⟩, rest⟩
    · simp only [simLoop] at h
      cases h
    · simp only [simLoop] at h
      by_cases hv : v ∈ g.nodes
      · rw [if_pos hv] at h
        cases hlc : largestComponentSizeE (remove_node g v) with
        | error e => rw [hlc] at h; cases h
        | ok sz =>
          rw [hlc] at h
          cases hrec : simLoop recalc refresh n (i + 1) m (remove_node g v)
              (if recalc then sortDesc (refresh (remove_node g v)) else rest) with
          | error e => rw [hrec] at h; cases h
          | ok pr =>
            obtain ⟨t', gF'⟩ := pr
            rw [hrec] at h
            injection h with h'
            injection h' with h1 h2
            subst h1
            subst h2
            obtain ⟨⟨hfst, hlen⟩, szs, hsnd, hchain⟩ := ih (i + 1) _ _ _ _ hrec
            obtain ⟨hsz, -⟩ := largestComponentSizeE_ok hlc
            refine ⟨⟨?_, by simpa using hlen⟩, sz :: szs, by simpa using hsnd, ?_⟩
            · simpa [List.range'_succ] using hfst
            · exact List.chain'_cons.mpr
                ⟨hsz ▸ lcc_remove_node g v, hsz ▸ hsz.symm ▸ hchain⟩
      · rw [if_neg hv] at h
        cases h

/-- Anatomy of a successful `rem_*` run: the subgroup is nonempty, the graph
is nonempty, and the returned row is assembled from the loop's step list
exactly as lines 45-47 and 56-59 of the source build `x`, `y`, `R` and the
returned index `0.5 - R / n`. -/
theorem remRun_ok {l0 : List (ℕ × Frac)} {refresh : Graph → List (ℕ × Frac)}
    {n : ℕ} {g : Graph} {rec : Bool} {row : Row} {gF : Graph}
    (h : remRun l0 refresh n g rec = Except.ok (row, gF)) :
    n ≠ 0 ∧ g.nodes.isEmpty = false ∧
    ∃ steps : List (Frac × Frac),
      simLoop rec refresh n 1 (n - 1) g l0 = Except.ok (steps, gF) ∧
      row = (Frac.ofNats 0 1 :: steps.map Prod.fst,
             Frac.ofNats (lcc g) n :: steps.map Prod.snd,
             Frac.sub Frac.half ((fsum (steps.map Prod.snd)).divN n)) := by
  unfold remRun at h
  split at h
  · cases h
  rename_i lc0 heq
  obtain ⟨hsz, hne⟩ := largestComponentSizeE_ok heq
  split at h
  · cases h
  rename_i hn0
  split at h
  · cases h
  rename_i steps gF' heq2
  injection h with h'
  injection h' with h1 h2
  exact ⟨hn0, hne, steps, h2 ▸ heq2, by rw [← h1, hsz]⟩

/-! Rational values of the embedded fractions. -/

theorem Frac.toRat_ofNats (a b : ℕ) : (Frac.ofNats a b).toRat = (a : ℚ) / (b : ℚ) := by
  simp [Frac.ofNats, Frac.toRat]

theorem Frac.toRat_add {a b : Frac} (ha : a.den ≠ 0) (hb : b.den ≠ 0) :
    (a.add b).toRat = a.toRat + b.toRat := by
  have ha' : ((a.den : ℚ)) ≠ 0 := by exact_mod_cast ha
  have hb' : ((b.den : ℚ)) ≠ 0 := by exact_mod_cast hb
  simp only [Frac.add, Frac.toRat]
  push_cast
  field_simp

theorem Frac.toRat_sub {a b : Frac} (ha : a.den ≠ 0) (hb : b.den ≠ 0) :
    (a.sub b).toRat = a.toRat - b.toRat := by
  have ha' : ((a.den : ℚ)) ≠ 0 := by exact_mod_cast ha
  have hb' : ((b.den : ℚ)) ≠ 0 := by exact_mod_cast hb
  simp only [Frac.sub, Frac.toRat]
  push_cast
  field_simp
  ring

theorem Frac.toRat_divN {a : Frac} (_ha : a.den ≠ 0) {n : ℕ} (_hn : n ≠ 0) :
    (a.divN n).toRat = a.toRat / (n : ℚ) := by
  simp only [Frac.divN, Frac.toRat]
  push_cast
  rw [div_div]

/-- The running sum `R` of the loop, in rational value: folding `Frac.add`
over the per-step fractions `sz/n` denotes the sum of their values. -/
theorem fsum_ofNats_toRat {n : ℕ} (hn : n ≠ 0) :
    ∀ (szs : List ℕ) (acc : Frac), acc.den ≠ 0 →
      ((szs.map (fun s => Frac.ofNats s n)).foldl Frac.add acc).toRat
          = acc.toRat + ((szs.map (fun s : ℕ => (s : ℚ))).sum) / (n : ℚ) ∧
      ((szs.map (fun s => Frac.ofNats s n)).foldl Frac.add acc).den ≠ 0 := by
  intro szs
  induction szs with
  | nil => intro acc hacc; simp [hacc]
  | cons s rest ih =>
    intro acc hacc
    have hden : (acc.add (Frac.ofNats s n)).den ≠ 0 := by
      simp only [Frac.add, Frac.ofNats]
      exact Nat.mul_ne_zero hacc hn
    obtain ⟨h1, h2⟩ := ih (acc.add (Frac.ofNats s n)) hden
    constructor
    · simp only [List.map_cons, List.foldl_cons, List.sum_cons]
      rw [h1, Frac.toRat_add hacc (by simpa [Frac.ofNats] using hn),
        Frac.toRat_ofNats, add_div]
      ring
    · simpa using h2

theorem list_sum_div (l : List ℚ) (c : ℚ) :
    (l.map (fun x => x / c)).sum = l.sum / c := by
  induction l with
  | nil => simp
  | cons a t ih => simp [ih, add_div]

/-! Derived facts about whole runs, shared by the claim theorems below. -/

theorem natdiv_le {s t : ℕ} (n : ℕ) (h : s ≤ t) :
    (s : ℚ) / (n : ℚ) ≤ (t : ℚ) / (n : ℚ) := by
  rcases Nat.eq_zero_or_pos n with rfl | hp
  · simp
  · have hn : (0 : ℚ) < (n : ℚ) := by exact_mod_cast hp
    have hc : (s : ℚ) ≤ (t : ℚ) := by exact_mod_cast h
    rw [div_le_div_iff₀ hn hn]
    exact mul_le_mul_of_nonneg_right hc (le_of_lt hn)

/-- The shape the spec requires of every removal curve: n entries in each
sequence, x running through 0, 1/n, ..., (n-1)/n. -/
def CurveShape (r : Except PyError (Row × Graph)) (n : ℕ) : Prop :=
  curveXQ r = some ((List.range n).map (fun i : ℕ => (i : ℚ) / (n : ℚ))) ∧
  (curveYQ r).map List.length = some n ∧
  (curveXQ r).map List.head? = some (some 0) ∧
  (curveXQ r).map List.getLast? = some (some (((n - 1 : ℕ) : ℚ) / (n : ℚ)))

theorem remRun_curveShape {l0 : List (ℕ × Frac)} {refresh : Graph → List (ℕ × Frac)}
    {n : ℕ} {g : Graph} {rec : Bool}
    (hok : (okOf (remRun l0 refresh n g rec)).isSome = true) :
    CurveShape (remRun l0 refresh n g rec) n := by
  cases hr : remRun l0 refresh n g rec with
  | error e => rw [hr] at hok; simp [okOf] at hok
  | ok pr =>
    obtain ⟨row, gF⟩ := pr
    obtain ⟨hn, hne, steps, hsim, hrow⟩ := remRun_ok hr
    obtain ⟨⟨hfst, hlen⟩, szs, hsnd, -⟩ := simLoop_ok _ _ _ _ _ _ _ _ _ hsim
    obtain ⟨m, hm⟩ := Nat.exists_eq_succ_of_ne_zero hn
    have hx : row.1.map Frac.toRat
        = (List.range n).map (fun i : ℕ => (i : ℚ) / (n : ℚ)) := by
      rw [hrow]
      subst hm
      rw [List.range_eq_range', show List.range' 0 (m + 1) = 0 :: List.range' 1 m from rfl]
      simp only [List.map_cons, hfst, List.map_map, Nat.add_sub_cancel]
      simp [Function.comp_def, Frac.toRat_ofNats, Frac.ofNats, Frac.toRat]
    have hxq : curveXQ (Except.ok (row, gF) : Except PyError (Row × Graph))
        = some (row.1.map Frac.toRat) := by
      simp [curveXQ, curveX, rowOf, okOf]
    refine ⟨by rw [hxq, hx], ?_, ?_, ?_⟩
    · have : row.2.1.length = n := by
        rw [hrow]
        simp only [List.length_cons, List.length_map, hlen]
        omega
      simp [curveYQ, curveY, rowOf, okOf, this]
    · rw [hxq, hx]
      subst hm
      rw [List.range_eq_range', show List.range' 0 (m + 1) = 0 :: List.range' 1 m from rfl]
      simp
    · rw [hxq, hx]
      subst hm
      rw [List.range_succ]
      simp [List.getLast?_concat]

theorem remRun_y_monotone {l0 : List (ℕ × Frac)} {refresh : Graph → List (ℕ × Frac)}
    {n : ℕ} {g : Graph} {rec : Bool}
    (hok : (okOf (remRun l0 refresh n g rec)).isSome = true) :
    ((curveYQ (remRun l0 refresh n g rec)).getD []).Chain' (fun a b => b ≤ a) := by
  cases hr : remRun l0 refresh n g rec with
  | error e => rw [hr] at hok; simp [okOf] at hok
  | ok pr =>
    obtain ⟨row, gF⟩ := pr
    obtain ⟨hn, hne, steps, hsim, hrow⟩ := remRun_ok hr
    obtain ⟨⟨-, -⟩, szs, hsnd, hchain⟩ := simLoop_ok _ _ _ _ _ _ _ _ _ hsim
    have hy : ((curveYQ (Except.ok (row, gF) : Except PyError (Row × Graph))).getD [])
        = (lcc g :: szs).map (fun s : ℕ => (s : ℚ) / (n : ℚ)) := by
      simp only [curveYQ, curveY, rowOf, okOf, Option.map_some, Option.getD_some,
        hrow, hsnd]
      simp [List.map_map, Function.comp_def, Frac.toRat_ofNats]
    rw [hy, List.chain'_map]
    exact hchain.imp fun a b hab => natdiv_le n hab

theorem curveYQ_head {r : Except PyError (Row × Graph)} {f : Frac}
    (h : (curveY r).map List.head? = some (some f)) :
    (curveYQ r).map List.head? = some (some f.toRat) := by
  cases hc : curveY r with
  | none => rw [hc] at h; simp at h
  | some l =>
    rw [hc] at h
    simp at h
    simp [curveYQ, hc, List.head?_map, h]

theorem remRun_y_head {l0 : List (ℕ × Frac)} {refresh : Graph → List (ℕ × Frac)}
    {n : ℕ} {g : Graph} {rec : Bool}
    (hok : (okOf (remRun l0 refresh n g rec)).isSome = true) :
    (curveYQ (remRun l0 refresh n g rec)).map List.head?
      = some (some ((lcc g : ℚ) / (n : ℚ))) := by
  cases hr : remRun l0 refresh n g rec with
  | error e => rw [hr] at hok; simp [okOf] at hok
  | ok pr =>
    obtain ⟨row, gF⟩ := pr
    obtain ⟨hn, hne, steps, hsim, hrow⟩ := remRun_ok hr
    simp [curveYQ, curveY, rowOf, okOf, hrow, Frac.toRat_ofNats]

/-! Claim theorems. -/

/-- C1, counterexample: on the complete graph K_2 under degree-based removal
the returned vulnerability index is 1/4, but 0.5 minus (the sum of the
largest-component fraction over all n steps of the curve, including the
step-0 entry) divided by n is 0.5 - (1 + 1/2)/2 = -1/4.  The running sum `R`
of the source starts only after the step-0 entry is recorded, so the claimed
identity fails. -/
theorem c1_counterexample :
    curveVQ (rem_degr K2 K2 false) = some (1 / 4 : ℚ) ∧
    curveYQ (rem_degr K2 K2 false) = some [1, 1 / 2] ∧
    (1 / 4 : ℚ) ≠ 1 / 2 - ([(1 : ℚ), 1 / 2].sum) / 2 := by
  refine ⟨?_, ?_, by norm_num⟩
  · have h : curveV (rem_degr K2 K2 false) = some ⟨2, 8⟩ := by decide
    norm_num [curveVQ, h, Frac.toRat]
  · have h : curveY (rem_degr K2 K2 false) = some [⟨2, 2⟩, ⟨1, 2⟩] := by decide
    norm_num [curveYQ, h, Frac.toRat]

/-- C1, amended: for every subgroup run of the degree-based simulation that
returns, the vulnerability index equals 0.5 minus (the sum of the
largest-component fraction over the n-1 removal steps, i.e. excluding the
step-0 entry) divided by n; in particular for complete graphs under
degree-based removal the index is 0.5 - (Σ i in 1..n-1 of (n-i)/n)/n,
verified for n = 4 and n = 5. -/
theorem c1_amended :
    (∀ (sub g : Graph) (rec : Bool),
      (okOf (rem_degr sub g rec)).isSome = true →
      ∃ yq vq, curveYQ (rem_degr sub g rec) = some yq ∧
        curveVQ (rem_degr sub g rec) = some vq ∧
        vq = 1 / 2 - yq.tail.sum / (sub.nodes.length : ℚ)) ∧
    curveVQ (rem_degr K4 K4 false)
      = some (1 / 2 - ((List.range' 1 3).map (fun i : ℕ => ((4 - i : ℕ) : ℚ) / 4)).sum / 4) ∧
    curveVQ (rem_degr K5 K5 false)
      = some (1 / 2 - ((List.range' 1 4).map (fun i : ℕ => ((5 - i : ℕ) : ℚ) / 5)).sum / 5) := by
  refine ⟨?_, ?_, ?_⟩
  · intro sub g rec hok
    cases hr : rem_degr sub g rec with
    | error e => rw [hr] at hok; simp [okOf] at hok
    | ok pr =>
      obtain ⟨⟨xs, ys, vv⟩, gF⟩ := pr
      obtain ⟨hn, hne, steps, hsim, hrow⟩ := remRun_ok hr
      obtain ⟨⟨-, -⟩, szs, hsnd, -⟩ := simLoop_ok _ _ _ _ _ _ _ _ _ hsim
      simp only [Prod.mk.injEq] at hrow
      obtain ⟨h1, h2, h3⟩ := hrow
      subst h1
      subst h2
      subst h3
      refine ⟨(Frac.ofNats (lcc g) sub.nodes.length :: steps.map Prod.snd).map Frac.toRat,
        (Frac.sub Frac.half ((fsum (steps.map Prod.snd)).divN sub.nodes.length)).toRat,
        by simp [curveYQ, curveY, rowOf, okOf],
        by simp [curveVQ, curveV, rowOf, okOf], ?_⟩
      have hfold := fsum_ofNats_toRat hn szs Frac.zero (by simp [Frac.zero])
      have hdenR : (fsum (szs.map (fun s => Frac.ofNats s sub.nodes.length))).den ≠ 0 :=
        hfold.2
      have hR : (fsum (szs.map (fun s => Frac.ofNats s sub.nodes.length))).toRat
          = ((szs.map (fun s : ℕ => (s : ℚ))).sum) / (sub.nodes.length : ℚ) := by
        simpa [Frac.zero, Frac.toRat] using hfold.1
      simp only [List.map_cons, List.tail_cons, hsnd]
      rw [Frac.toRat_sub (by simp [Frac.half])
            (by simp only [Frac.divN]; exact Nat.mul_ne_zero hdenR hn),
          Frac.toRat_divN hdenR hn, hR]
      simp only [List.map_map, Function.comp_def, Frac.toRat_ofNats]
      rw [show (szs.map fun s : ℕ => (s : ℚ) / (sub.nodes.length : ℚ))
            = (szs.map fun s : ℕ => (s : ℚ)).map
                (fun x : ℚ => x / (sub.nodes.length : ℚ)) by rw [List.map_map]; rfl]
      rw [list_sum_div]
      norm_num [Frac.half, Frac.toRat]
  · have h : curveV (rem_degr K4 K4 false) = some ⟨64, 512⟩ := by decide
    norm_num [curveVQ, h, Frac.toRat, List.range']
  · have h : curveV (rem_degr K5 K5 false) = some ⟨625, 6250⟩ := by decide
    norm_num [curveVQ, h, Frac.toRat, List.range']

/-- C1, witness: the amended index identity instantiated on K_2. -/
theorem c1_witness :
    (okOf (rem_degr K2 K2 false)).isSome = true ∧
    (∃ yq vq, curveYQ (rem_degr K2 K2 false) = some yq ∧
      curveVQ (rem_degr K2 K2 false) = some vq ∧
      vq = 1 / 2 - yq.tail.sum / (K2.nodes.length : ℚ)) :=
  ⟨by decide, c1_amended.1 K2 K2 false (by decide)⟩

/-- C2: for every graph and subgroup, a removal curve returned by the
degree, betweenness or random method has exactly n entries in each sequence,
with x running through 0, 1/n, ..., (n-1)/n - so the first x is 0 and the
last is (n-1)/n. -/
theorem c2_curve_shape :
    (∀ (sub g : Graph) (rec : Bool), (okOf (rem_betw sub g rec)).isSome = true →
      CurveShape (rem_betw sub g rec) sub.nodes.length) ∧
    (∀ (sub g : Graph) (rec : Bool), (okOf (rem_degr sub g rec)).isSome = true →
      CurveShape (rem_degr sub g rec) sub.nodes.length) ∧
    (∀ (sub g : Graph) (shuffled : List ℕ),
      (okOf (rem_rand sub g shuffled)).isSome = true →
      CurveShape (rem_rand sub g shuffled) sub.nodes.length) :=
  ⟨fun _ _ _ hok => remRun_curveShape hok,
   fun _ _ _ hok => remRun_curveShape hok,
   fun _ _ _ hok => remRun_curveShape hok⟩

/-- C2, witness: the curve shape on the three-node path, for each method. -/
theorem c2_witness :
    ((okOf (rem_betw P3 P3 false)).isSome = true ∧
      CurveShape (rem_betw P3 P3 false) P3.nodes.length) ∧
    ((okOf (rem_degr P3 P3 false)).isSome = true ∧
      CurveShape (rem_degr P3 P3 false) P3.nodes.length) ∧
    ((okOf (rem_rand P3 P3 [2, 3, 1])).isSome = true ∧
      CurveShape (rem_rand P3 P3 [2, 3, 1]) P3.nodes.length) :=
  ⟨⟨by decide, c2_curve_shape.1 P3 P3 false (by decide)⟩,
   ⟨by decide, c2_curve_shape.2.1 P3 P3 false (by decide)⟩,
   ⟨by decide, c2_curve_shape.2.2 P3 P3 [2, 3, 1] (by decide)⟩⟩

/-- C3: on the failing input G8 (whole graph as the subgroup,
recalculate = True), the degree-based simulation's refresh uses betweenness
centrality (source line 86): at step 2 it removes the bridge node 4, leaving
a largest component of 3 of 8 nodes, whereas refreshing with degree
centrality - the behaviour the claim describes - removes a triangle node of
degree 3 and leaves a largest component of 4 of 8 nodes. -/
theorem c3_failing_run :
    (curveYQ (rem_degr G8 G8 true)).map (fun y => y.get? 2)
      = some (some (3 / 8 : ℚ)) ∧
    (curveYQ (rem_degr_degreeRefresh G8 G8 true)).map (fun y => y.get? 2)
      = some (some (1 / 2 : ℚ)) ∧
    (3 / 8 : ℚ) ≠ 1 / 2 := by
  refine ⟨?_, ?_, by norm_num⟩
  · have h : curveY (rem_degr G8 G8 true)
        = some [⟨8, 8⟩, ⟨7, 8⟩, ⟨3, 8⟩, ⟨3, 8⟩, ⟨3, 8⟩, ⟨3, 8⟩, ⟨2, 8⟩, ⟨1, 8⟩] := by
      decide
    norm_num [curveYQ, h, Frac.toRat, List.get?]
  · have h : curveY (rem_degr_degreeRefresh G8 G8 true)
        = some [⟨8, 8⟩, ⟨7, 8⟩, ⟨4, 8⟩, ⟨2, 8⟩, ⟨2, 8⟩, ⟨1, 8⟩, ⟨1, 8⟩, ⟨1, 8⟩] := by
      decide
    norm_num [curveYQ, h, Frac.toRat, List.get?]

/-- C4, counterexample: in the betweenness method on gShared, the Bact
subgroup's step-0 largest-component fraction is 3/2, because the fungi run
already removed node 1 from the shared graph; a run of the same subgroup
from a fresh copy of the full graph measures 2. -/
theorem c4_counterexample :
    (okOf (betweenness gShared false)).map
        (fun t => (t.2.1.2.1.head?).map Frac.toRat) = some (some (3 / 2 : ℚ)) ∧
    (curveYQ (rem_betw (subgraphOn gShared "Bact") gShared false)).map List.head?
      = some (some (2 : ℚ)) ∧
    (3 / 2 : ℚ) ≠ 2 := by
  refine ⟨?_, ?_, by norm_num⟩
  · have h : (okOf (betweenness gShared false)).map (fun t => t.2.1.2.1.head?)
        = some (some (⟨3, 2⟩ : Frac)) := by decide
    have h2 := congrArg (fun o => o.map (fun w => w.map Frac.toRat)) h
    simp only [Option.map_map, Function.comp_def] at h2
    rw [h2]
    norm_num [Frac.toRat]
  · have h : (curveY (rem_betw (subgraphOn gShared "Bact") gShared false)).map List.head?
        = some (some (⟨4, 2⟩ : Frac)) := by decide
    rw [curveYQ_head h]
    norm_num [Frac.toRat]

/-- C4, amended: within one method run the three subgroup simulations thread
a single shared, mutated graph in order (fungi, then Bact, then lipid): on
gShared the recorded step-0 fractions are (2, 3/2, 2), whereas fresh-copy
runs of the Bact and lipid subgroups measure 2 and 4. -/
theorem c4_amended :
    (okOf (betweenness gShared false)).map
        (fun t => ((t.1.2.1.head?).map Frac.toRat,
                   (t.2.1.2.1.head?).map Frac.toRat,
                   (t.2.2.2.1.head?).map Frac.toRat))
      = some (some (2 : ℚ), some (3 / 2 : ℚ), some (2 : ℚ)) ∧
    (curveYQ (rem_betw (subgraphOn gShared "lipid") gShared false)).map List.head?
      = some (some (4 : ℚ)) ∧
    ((3 / 2 : ℚ) ≠ 2 ∧ (2 : ℚ) ≠ 4) := by
  refine ⟨?_, ?_, by norm_num, by norm_num⟩
  · have h : (okOf (betweenness gShared false)).map
        (fun t => (t.1.2.1.head?, t.2.1.2.1.head?, t.2.2.2.1.head?))
        = some (some (⟨4, 2⟩ : Frac), some (⟨3, 2⟩ : Frac), some (⟨2, 1⟩ : Frac)) := by
      decide
    have h2 := congrArg (fun o => o.map
      (fun w : Option Frac × Option Frac × Option Frac =>
        (w.1.map Frac.toRat, w.2.1.map Frac.toRat, w.2.2.map Frac.toRat))) h
    simp only [Option.map_map, Function.comp_def] at h2
    rw [h2]
    norm_num [Frac.toRat]
  · have h : (curveY (rem_betw (subgraphOn gShared "lipid") gShared false)).map List.head?
        = some (some (⟨4, 1⟩ : Frac)) := by decide
    rw [curveYQ_head h]
    norm_num [Frac.toRat]

/-- C5, counterexample: on a subgroup with no matching nodes the simulation
does not take a skip branch - it evaluates `len(largest_component)*1./n`
with n = 0 and fails with ZeroDivisionError. -/
theorem c5_counterexample :
    errorOf (rem_betw (subgraphOn gShared "absent") gShared false)
      = some PyError.zeroDivision := by decide

/-- C5, amended: for every subgroup with zero matching nodes (and a nonempty
full graph), the removal simulation raises a division-by-zero error at the
initial largest-component fraction; there is no explicit skip or empty-curve
branch. -/
theorem c5_amended : ∀ (sub g : Graph) (rec : Bool),
    sub.nodes = [] → g.nodes.isEmpty = false →
    errorOf (rem_betw sub g rec) = some PyError.zeroDivision := by
  intro sub g rec hsub hg
  have h1 : largestComponentSizeE g = Except.ok (lcc g) := by
    unfold largestComponentSizeE
    rw [if_neg (by simp [hg])]
  simp [rem_betw, remRun, h1, hsub, errorOf]

/-- C5, witness: the division-by-zero error on gShared with a label matching
no node. -/
theorem c5_witness :
    (subgraphOn gShared "none").nodes = [] ∧ gShared.nodes.isEmpty = false ∧
    errorOf (rem_betw (subgraphOn gShared "none") gShared false)
      = some PyError.zeroDivision :=
  ⟨by decide, by decide, c5_amended _ _ false (by decide) (by decide)⟩

/-- C6: on a connected input graph, under sequential removal
(recalculate = True) the largest-component-fraction sequence of the
betweenness- or degree-based simulation is non-increasing. -/
theorem c6_monotone :
    (∀ (sub g : Graph), connectedB g = true →
      (okOf (rem_betw sub g true)).isSome = true →
      ((curveYQ (rem_betw sub g true)).getD []).Chain' (fun a b => b ≤ a)) ∧
    (∀ (sub g : Graph), connectedB g = true →
      (okOf (rem_degr sub g true)).isSome = true →
      ((curveYQ (rem_degr sub g true)).getD []).Chain' (fun a b => b ≤ a)) :=
  ⟨fun _ _ _ hok => remRun_y_monotone hok, fun _ _ _ hok => remRun_y_monotone hok⟩

/-- C6, witness: monotone decline on the connected path of five nodes. -/
theorem c6_witness :
    connectedB P5 = true ∧ (okOf (rem_betw P5 P5 true)).isSome = true ∧
    ((curveYQ (rem_betw P5 P5 true)).getD []).Chain' (fun a b => b ≤ a) :=
  ⟨by decide, by decide, c6_monotone.1 P5 P5 (by decide) (by decide)⟩

/-- C7, counterexample: a cycle graph is not a graph on which the centrality
ranking stays unchanged: on the five-cycle, rem_betw with recalculate = True
yields the y-curve [1, 4/5, 2/5, 2/5, 1/5] (after one removal the graph is a
path, whose central node has the strictly largest betweenness), while
recalculate = False yields [1, 4/5, 3/5, 2/5, 1/5] - the curves differ. -/
theorem c7_counterexample :
    curveYQ (rem_betw C5c C5c true) = some [1, 4 / 5, 2 / 5, 2 / 5, 1 / 5] ∧
    curveYQ (rem_betw C5c C5c false) = some [1, 4 / 5, 3 / 5, 2 / 5, 1 / 5] ∧
    ([1, 4 / 5, 2 / 5, 2 / 5, 1 / 5] : List ℚ) ≠ [1, 4 / 5, 3 / 5, 2 / 5, 1 / 5] := by
  refine ⟨?_, ?_, by norm_num⟩
  · have h : curveY (rem_betw C5c C5c true)
        = some [⟨5, 5⟩, ⟨4, 5⟩, ⟨2, 5⟩, ⟨2, 5⟩, ⟨1, 5⟩] := by decide
    norm_num [curveYQ, h, Frac.toRat]
  · have h : curveY (rem_betw C5c C5c false)
        = some [⟨5, 5⟩, ⟨4, 5⟩, ⟨3, 5⟩, ⟨2, 5⟩, ⟨1, 5⟩] := by decide
    norm_num [curveYQ, h, Frac.toRat]

/-- C7, amended: recalculate = True and False produce identical curves and
index on a graph where the refreshed ranking order never changes after a
removal, such as a complete graph (verified on K_5, where all betweenness
centralities remain tied throughout); the cycle graph of the claim is not
such a graph (see the counterexample). -/
theorem c7_amended :
    rowOf (rem_betw K5 K5 true) = rowOf (rem_betw K5 K5 false) := by decide

/-- C8: the third command-line argument is compared against the single exact
token "True"; that token gives recalculate = True and every other string
gives False, with no error raised (the parse is total). -/
theorem c8_parse :
    parseRecalc "True" = true ∧ ∀ s : String, s ≠ "True" → parseRecalc s = false := by
  refine ⟨rfl, fun s hs => ?_⟩
  unfold parseRecalc
  exact beq_eq_false_iff_ne.mpr hs

/-- C8, witness: the lowercase token "true" is not recognized. -/
theorem c8_witness :
    ("true" : String) ≠ "True" ∧ parseRecalc "true" = false :=
  ⟨by decide, c8_parse.2 "true" (by decide)⟩

/-- C9: after the three subgroup simulations, degree() executes the
interactive-debugger line (`Tracer()();set_trace()`, with `set_trace`
undefined), so in an unattended run it never returns a result table, and
main never reaches the CSV export. -/
theorem c9_debugger : ∀ (g : Graph) (s : String),
    okOf (degree g (parseRecalc s)) = none ∧ okOf (main g s) = none := by
  intro g s
  have hdeg : okOf (degree g (parseRecalc s)) = none := by
    simp only [degree]
    split
    · rfl
    · split
      · rfl
      · split
        · rfl
        · rfl
  refine ⟨hdeg, ?_⟩
  cases hd : degree g (parseRecalc s) with
  | error e => simp only [main]; rw [hd]; rfl
  | ok v => rw [hd] at hdeg; simp [okOf] at hdeg

/-- C10: every step-0 largest-component fraction equals the size of the
largest component of the full graph divided by the subgroup size n; since
the full graph has nodes outside the subgroup the fraction is not bounded by
1: on gShared's two-node fungi subgroup the first y entry is 2 > 1. -/
theorem c10_fraction :
    (∀ (sub g : Graph) (rec : Bool), (okOf (rem_betw sub g rec)).isSome = true →
      (curveYQ (rem_betw sub g rec)).map List.head?
        = some (some ((lcc g : ℚ) / (sub.nodes.length : ℚ)))) ∧
    (∀ (sub g : Graph) (rec : Bool), (okOf (rem_degr sub g rec)).isSome = true →
      (curveYQ (rem_degr sub g rec)).map List.head?
        = some (some ((lcc g : ℚ) / (sub.nodes.length : ℚ)))) ∧
    ((curveYQ (rem_betw (subgraphOn gShared "fungi") gShared false)).map List.head?
        = some (some (2 : ℚ)) ∧ (1 : ℚ) < 2) := by
  refine ⟨fun _ _ _ hok => remRun_y_head hok, fun _ _ _ hok => remRun_y_head hok,
    ?_, by norm_num⟩
  have h : (curveY (rem_betw (subgraphOn gShared "fungi") gShared false)).map List.head?
      = some (some (⟨4, 2⟩ : Frac)) := by decide
  rw [curveYQ_head h]
  norm_num [Frac.toRat]

/-- C10, witness: the head identity instantiated on gShared's fungi
subgroup, where the fraction is lcc(gShared)/2 = 2. -/
theorem c10_witness :
    (okOf (rem_betw (subgraphOn gShared "fungi") gShared false)).isSome = true ∧
    (curveYQ (rem_betw (subgraphOn gShared "fungi") gShared false)).map List.head?
      = some (some ((lcc gShared : ℚ) / ((subgraphOn gShared "fungi").nodes.length : ℚ))) :=
  ⟨by decide, c10_fraction.1 _ gShared false (by decide)⟩

end Robustness
